import Mathlib

/-!
Shallow embedding of the matching engine of the DocumentFilter repository
(class MatchWorker in src/file_selector.py).

Python strings are modelled as lists of characters.  A scanned directory is
modelled by the list of names of the regular files directly inside it
(os.listdir filtered by os.path.isfile): the engine only ever joins the
directory with a listed entry and immediately takes os.path.basename of the
result, so for a fixed directory the bare names are a faithful rendering of
the paths.
-/

namespace DocFilter

/-- A filename, keyword, id or directory path: a Python str as a list of characters. -/
abbrev FName := List Char

/-- A matched pair, projecting the tuples (s, t, s_name, t_name, key) appended to
matched_pairs onto (sourceRef?, targetRef, matchKey); the display-name components
are recomputed from the first two and carry no extra information in the name model. -/
abbrev MPair := Option FName × FName × FName

/-- Python str.startswith: the first list is an initial segment of the second. -/
def startsW : FName → FName → Bool
  | [], _ => true
  | _ :: _, [] => false
  | a :: as, b :: bs => a == b && startsW as bs

/-- Python str.endswith. -/
def endsW (p s : FName) : Bool := startsW p.reverse s.reverse

/-- Python substring test (kw in s). -/
def contS : FName → FName → Bool
  | n, [] => n.isEmpty
  | n, h :: t => startsW n (h :: t) || contS n t

/-- Index of the last occurrence of a character (str.rfind). -/
def lastIdxOf (c : Char) (p : FName) : Option Nat :=
  match p.reverse.findIdx? (· == c) with
  | some k => some (p.length - 1 - k)
  | none => none

/-- os.path.splitext for a basename: split at the last dot, unless every character
before that dot is itself a dot (leading dots do not start an extension). -/
def splitext (p : FName) : FName × FName :=
  match lastIdxOf '.' p with
  | some i =>
      if (p.take i).any (fun c => c != '.') then (p.take i, p.drop i) else (p, [])
  | none => (p, [])

/-- The stem of a filename: os.path.splitext(name)[0]. -/
def stemOf (n : FName) : FName := (splitext n).1

/-- Python str.strip() with the default whitespace set (approximated by
Char.isWhitespace, which covers the ASCII whitespace the engine meets). -/
def stripL (s : FName) : FName :=
  ((s.dropWhile Char.isWhitespace).reverse.dropWhile Char.isWhitespace).reverse

/-- Keyword parsing (file_selector.py line 414):
filter_text.replace(chr(59), newline).split(newline), each entry stripped,
empty entries discarded, duplicates kept. -/
def parseKeywords (text : FName) : List FName :=
  ((text.map (fun c => if c == ';' then '\n' else c)).splitOn '\n').filterMap
    (fun seg => if (stripL seg).isEmpty then none else some (stripL seg))

/-- The character class of the compiled id pattern ([a-zA-Z0-9]+) at line 337. -/
def isAlnumC (c : Char) : Bool :=
  decide (('a' ≤ c ∧ c ≤ 'z') ∨ ('A' ≤ c ∧ c ≤ 'Z') ∨ ('0' ≤ c ∧ c ≤ '9'))

/-- id_pattern.match(name) followed by group(1): the maximal leading alphanumeric
run; none when the name does not begin with an alphanumeric character. -/
def extractId (n : FName) : Option FName :=
  let r := n.takeWhile isAlnumC
  if r.isEmpty then none else some r

/-- Lookup in target_dict (lines 261-265): keyed by basename, later entries
overwrite earlier ones; with names as identities the stored path is the key. -/
def targetDictFind (targets : List FName) (n : FName) : Option FName :=
  targets.foldl (fun acc t => if t == n then some t else acc) none

/-- Lookup in target_dict_no_ext (lines 266-269): the targets sharing a stem,
appended in scan order. -/
def stemDictFind (targets : List FName) (st : FName) : List FName :=
  targets.filter (fun t => stemOf t == st)

/-- Lookup in s_dict (lines 340-348): the sources sharing a leading id, in scan order. -/
def sDictFind (sources : List FName) (i : FName) : List FName :=
  sources.filter (fun s => extractId s == some i)

/-- Per-source body of _process_chunk_by_name (lines 166-183); the sequential loop
at lines 310-326 appends exactly the same pairs for each source. -/
def processName (formatMatch : Bool) (targets : List FName) (s : FName) : List MPair :=
  if formatMatch then
    match targetDictFind targets s with
    | some t => [(some s, t, s)]
    | none => []
  else
    (stemDictFind targets (stemOf s)).map (fun t => (some s, t, stemOf s))

/-- Per-target body of _process_chunk_by_id (lines 185-197); the sequential loop at
lines 382-391 appends exactly the same pairs for each target. -/
def processId (sources : List FName) (t : FName) : List MPair :=
  match extractId t with
  | some tid => (sDictFind sources tid).map (fun s => (some s, t, tid))
  | none => []

/-- The inner loop of _process_chunk_by_text (lines 205-208): keywords are tested in
request order and the loop breaks at the first keyword contained in the filename. -/
def firstKwHit (keywords : List FName) (tname : FName) : Option FName :=
  match keywords with
  | [] => none
  | kw :: rest => if contS kw tname then some kw else firstKwHit rest tname

/-- _process_chunk_by_text (lines 199-209): at most one pair per target, keyed by
the first matching keyword. -/
def processChunkByText (chunk keywords : List FName) : List MPair :=
  chunk.flatMap (fun t =>
    match firstKwHit keywords t with
    | some kw => [((none : Option FName), t, kw)]
    | none => [])

/-- The sequential expand-mode loop (lines 507-519): the inner keyword loop has no
break, so every matching keyword contributes a pair for the target. -/
def seqExpandPairs (targets keywords : List FName) : List MPair :=
  targets.flatMap (fun t =>
    keywords.filterMap (fun kw =>
      if contS kw t then some ((none : Option FName), t, kw) else none))

/-- chunk_size of _split_list (line 163): max(1, len(items) // num_chunks),
floored integer division. -/
def chunkSize (n numChunks : Nat) : Nat := max 1 (n / numChunks)

/-- One slice per step of the comprehension at line 164,
items[i : i + chunk_size] for i in range(0, len(items), chunk_size); the fuel
bounds the number of slices (len(items) suffices whenever the size is positive). -/
def slicesF : Nat → Nat → List FName → List (List FName)
  | 0, _, _ => []
  | _ + 1, _, [] => []
  | fuel + 1, k, l => l.take k :: slicesF fuel k (l.drop k)

/-- _split_list (lines 158-164). -/
def splitList (items : List FName) (numChunks : Nat) : List (List FName) :=
  if items.isEmpty then []
  else slicesF items.length (chunkSize items.length numChunks) items

/-- The sources recorded in matched_source_files: exactly the non-null source
components of the emitted pairs (lines 300-303, 328-329, 371-374, 391). -/
def pairSources (pairs : List MPair) : List FName := pairs.filterMap (·.1)

/-- unmatched_source_files (line 398): the scanned sources that appear in no pair. -/
def unmatchedSrc (sources : List FName) (pairs : List MPair) : List FName :=
  sources.filter (fun s => ! pairs.any (fun p => p.1 == some s))

/-- Full-name directory matching with the chunk executor (lines 281-333).  When
multithreading is on and more than 100 sources were scanned, the chunk results are
merged in completion order; sched is the chunk list in that completion order (the
theorems relate it to _split_list by a permutation hypothesis). -/
def runExactPairs (sources targets : List FName) (formatMatch mt : Bool)
    (sched : List (List FName)) : List MPair :=
  if mt && decide (100 < sources.length) then
    sched.flatMap (fun chunk => chunk.flatMap (processName formatMatch targets))
  else
    sources.flatMap (processName formatMatch targets)

/-- Id-basis directory matching with the chunk executor (lines 335-395); the
chunked list is the target list. -/
def runIdPairs (sources targets : List FName) (mt : Bool)
    (sched : List (List FName)) : List MPair :=
  if mt && decide (100 < targets.length) then
    sched.flatMap (fun chunk => chunk.flatMap (processId sources))
  else
    targets.flatMap (processId sources)

/-- Expand-mode keyword matching with the chunk executor (lines 479-519). -/
def runExpandPairs (targets keywords : List FName) (mt : Bool)
    (sched : List (List FName)) : List MPair :=
  if mt && decide (100 < targets.length) then
    sched.flatMap (fun chunk => processChunkByText chunk keywords)
  else
    seqExpandPairs targets keywords

/-- Lookup in name_dict of full-match keyword mode (lines 425-429): keyed by stem,
later targets overwrite earlier ones. -/
def nameDictFind (targets : List FName) (st : FName) : Option FName :=
  targets.foldl (fun acc t => if stemOf t == st then some t else acc) none

/-- Full-match keyword pairs (lines 431-437): one lookup per keyword occurrence. -/
def fullMatchPairs (targets keywords : List FName) : List MPair :=
  keywords.filterMap (fun kw =>
    (nameDictFind targets kw).map (fun t => ((none : Option FName), t, kw)))

/-- unmatched_keywords of full-match mode (line 440): one entry per occurrence. -/
def fullMatchUnmatched (targets keywords : List FName) : List FName :=
  keywords.filter (fun kw => (nameDictFind targets kw).isNone)

/-- The match score of exact substring mode (lines 456-468), computed for a keyword
contained in the stem. -/
def scoreOf (kw st : FName) : Nat :=
  if st == kw then 100
  else if startsW (kw ++ ['-']) st || startsW (kw ++ ['_']) st then 80
  else if endsW (['-'] ++ kw) st || endsW (['_'] ++ kw) st then 60
  else 40

/-- One update of keyword_best_matches for a single keyword and target
(lines 454-472): replace the stored candidate only on a strictly greater score. -/
def bestStep (kw : FName) (acc : Option (FName × Nat)) (t : FName) : Option (FName × Nat) :=
  if contS kw (stemOf t) then
    match acc with
    | none => some (t, scoreOf kw (stemOf t))
    | some (t0, sc0) =>
        if sc0 < scoreOf kw (stemOf t) then some (t, scoreOf kw (stemOf t))
        else some (t0, sc0)
  else acc

/-- The entry of keyword_best_matches for one keyword after the target scan;
entries of distinct keywords never interact, so the per-keyword projection of the
dict is a left fold over the targets. -/
def bestFor (kw : FName) (targets : List FName) : Option (FName × Nat) :=
  targets.foldl (bestStep kw) none

/-- Pairs emitted at lines 475-477, one per dict key.  Dict insertion order is not
modelled (pair order is not part of any claim); the key set of the dict is the set
of keywords having a candidate, enumerated here from the deduplicated keyword list. -/
def exactKwPairs (targets keywords : List FName) : List MPair :=
  keywords.dedup.filterMap (fun kw =>
    (bestFor kw targets).map (fun p => ((none : Option FName), p.1, kw)))

/-- unmatched_keywords of exact substring mode (line 522). -/
def exactKwUnmatched (targets keywords : List FName) : List FName :=
  keywords.filter (fun kw => (bestFor kw targets).isNone)

/-- The pair list of one directory-mode run (choice at line 281 / line 335),
sequential path; the parallel path is covered by the run functions above. -/
def dirPairs (sources targets : List FName) (fullNameBasis formatMatch : Bool) : List MPair :=
  if fullNameBasis then sources.flatMap (processName formatMatch targets)
  else targets.flatMap (processId sources)

/-- The filesystem: a directory path maps to the listing of its regular files, none
when the path does not exist or is not a directory. -/
def FSModel := FName → Option (List FName)

/-- _load_files (lines 149-156): empty path or non-directory gives an empty listing. -/
def loadFiles (fs : FSModel) (d : FName) : List FName :=
  if d.isEmpty then [] else
    match fs d with
    | some l => l
    | none => []

/-- Terminal outcome of one run: a configuration error (error.emit with a fixed
message before matching), a caught exception (error.emit(str(e)) at line 528), or a
normal completion carrying pairs, unmatched sources and unmatched keywords. -/
inductive Outcome where
  | errConfig : Outcome
  | errExn : Outcome
  | ok : List MPair → List FName → List FName → Outcome
  deriving DecidableEq

/-- Directory-matching run, sequential path, with the cancellation flag never set
(lines 237-398 and the final emits at lines 525-527). -/
def runDirMode (fs : FSModel) (srcDir tgtDir : FName)
    (fullNameBasis formatMatch : Bool) : Outcome :=
  if srcDir.isEmpty || tgtDir.isEmpty then Outcome.errConfig
  else
    let sources := loadFiles fs srcDir
    let targets := loadFiles fs tgtDir
    let pairs := dirPairs sources targets fullNameBasis formatMatch
    Outcome.ok pairs (unmatchedSrc sources pairs) []

/-- Keyword-matching run, sequential path, flag never set (lines 400-527).  Line 420
lists the target directory with os.listdir and no isdir guard: a missing or
non-directory path raises there and the exception is caught at line 528. -/
def runKwMode (fs : FSModel) (tgtDir textInput : FName)
    (fullTextBasis expand : Bool) : Outcome :=
  if tgtDir.isEmpty then Outcome.errConfig
  else if (stripL textInput).isEmpty then Outcome.errConfig
  else
    match fs tgtDir with
    | none => Outcome.errExn
    | some targets =>
        let keywords := parseKeywords textInput
        if fullTextBasis then
          Outcome.ok (fullMatchPairs targets keywords) []
            (fullMatchUnmatched targets keywords)
        else if expand then
          Outcome.ok (seqExpandPairs targets keywords) []
            (keywords.filter (fun kw => ! targets.any (fun t => contS kw t)))
        else
          Outcome.ok (exactKwPairs targets keywords) []
            (exactKwUnmatched targets keywords)

/-- Observable events of a run: the counting scan with its emitted counts
(lines 213-227), an error signal, or the terminal result signal. -/
inductive Ev where
  | counts : Nat → Nat → Ev
  | errConfig : Ev
  | errExn : Ev
  | done : Ev
  deriving DecidableEq

/-- The counting scan of one directory (lines 218-224): a missing directory or an
empty path is skipped and counts 0. -/
def countFiles (fs : FSModel) (d : FName) : Nat :=
  if d.isEmpty then 0 else
    match fs d with
    | some l => l.length
    | none => 0

/-- Event trace of a directory-mode run: the counting scan of both supplied
directories always runs and emits first (lines 213-227); only then is the
configuration checked (lines 238-240). -/
def runDirTrace (fs : FSModel) (srcDir tgtDir : FName)
    (fullNameBasis formatMatch : Bool) : List Ev :=
  Ev.counts (countFiles fs srcDir) (countFiles fs tgtDir) ::
    (match runDirMode fs srcDir tgtDir fullNameBasis formatMatch with
     | Outcome.errConfig => [Ev.errConfig]
     | Outcome.errExn => [Ev.errExn]
     | Outcome.ok _ _ _ => [Ev.done])

/-- Event trace of a keyword-mode run (config checks at lines 401-408 come after
the counting scan). -/
def runKwTrace (fs : FSModel) (srcDir tgtDir textInput : FName)
    (fullTextBasis expand : Bool) : List Ev :=
  Ev.counts (countFiles fs srcDir) (countFiles fs tgtDir) ::
    (match runKwMode fs tgtDir textInput fullTextBasis expand with
     | Outcome.errConfig => [Ev.errConfig]
     | Outcome.errExn => [Ev.errExn]
     | Outcome.ok _ _ _ => [Ev.done])

/-- Number of index-building batches for the target list (line 261): one batch per
started block of 1000 targets. -/
def idxBatches (nTargets : Nat) : Nat := (nTargets + 999) / 1000

/-- Full-name directory run with multithreading enabled, parameterized by the time
ct at which the cooperative flag becomes (and stays) set.  The flag is polled at
times 1 (line 230), 2 (line 245), 3 (line 250) and 3 + i after the i-th index
batch (line 274); a poll that observes the flag returns with nothing dispatched
and no result.  The dispatch comprehension (lines 288-293) and the merge loop
(lines 295-307) never poll, so the first chunk dispatch is at time
4 + idxBatches and all chunks are dispatched and merged; the terminal emits at
lines 525-527 are unconditional.  Returns the number of chunks dispatched and the
emitted terminal result, if any. -/
def runFNCancel (sources targets : List FName) (formatMatch : Bool)
    (tc ct : Nat) : Nat × Option (List MPair × List FName) :=
  if ct ≤ 1 then (0, none)
  else if ct ≤ 2 then (0, none)
  else if ct ≤ 3 then (0, none)
  else if ct ≤ 3 + idxBatches targets.length then (0, none)
  else if 100 < sources.length then
    ((splitList sources tc).length,
     some (sources.flatMap (processName formatMatch targets),
           unmatchedSrc sources (sources.flatMap (processName formatMatch targets))))
  else
    (0,
     some (sources.flatMap (processName formatMatch targets),
           unmatchedSrc sources (sources.flatMap (processName formatMatch targets))))

/-- The time at which the first chunk is dispatched when the run is not cancelled
at any poll. -/
def firstDispatchTime (nTargets : Nat) : Nat := 4 + idxBatches nTargets

/-- A directory of 101 files, large enough to trigger the parallel path: the name
"ab" followed by 100 filler names built from the letter z and decimal digits (so no
filler name has "a" or "b" as a substring). -/
def demo101 : List FName :=
  ['a', 'b'] :: (List.range 100).map (fun i => 'z' :: Nat.toDigits 10 i)

/-- The keyword request "a;b" after parsing. -/
def kwAB : List FName := [['a'], ['b']]

/-- The pair produced for target "ab" by the second keyword "b". -/
def pairB : MPair := (none, ['a', 'b'], ['b'])

/-- A one-file target directory used by the cancellation model. -/
def demoT6 : List FName := [['t', '.', 'x']]

/-- A filesystem with a single directory "t" holding one file "f1". -/
def demoFS8 : FSModel := fun d => if d == ['t'] then some [['f', '1']] else none

/-! ### Helper lemmas about the chunk splitter -/

theorem slicesF_nil (fuel k : Nat) : slicesF fuel k [] = [] := by
  cases fuel <;> rfl

theorem slicesF_flatten (fuel k : Nat) :
    ∀ l : List FName, l.length ≤ fuel → 1 ≤ k → (slicesF fuel k l).flatten = l := by
  induction fuel with
  | zero =>
    intro l hl _
    cases l with
    | nil => rfl
    | cons x xs => simp at hl
  | succ n ih =>
    intro l hl hk
    cases l with
    | nil => rfl
    | cons x xs =>
      simp only [slicesF, List.flatten_cons]
      rw [ih ((x :: xs).drop k) (by simp at hl ⊢; omega) hk]
      exact List.take_append_drop k (x :: xs)

theorem slicesF_mem (fuel k : Nat) :
    ∀ l : List FName, l.length ≤ fuel → 1 ≤ k →
      ∀ c ∈ slicesF fuel k l, c ≠ [] ∧ c.length ≤ k := by
  induction fuel with
  | zero =>
    intro l hl _ c hc
    cases l with
    | nil => simp [slicesF] at hc
    | cons x xs => simp at hl
  | succ n ih =>
    intro l hl hk c hc
    cases l with
    | nil => simp [slicesF] at hc
    | cons x xs =>
      simp only [slicesF, List.mem_cons] at hc
      rcases hc with rfl | hc
      · constructor
        · obtain ⟨k', rfl⟩ := Nat.exists_eq_add_of_le hk
          simp [List.take]
        · simp
      · exact ih ((x :: xs).drop k) (by simp at hl ⊢; omega) hk c hc

theorem slicesF_dropLast (fuel k : Nat) :
    ∀ l : List FName, l.length ≤ fuel → 1 ≤ k →
      ∀ c ∈ (slicesF fuel k l).dropLast, c.length = k := by
  induction fuel with
  | zero =>
    intro l hl _ c hc
    cases l with
    | nil => simp [slicesF] at hc
    | cons x xs => simp at hl
  | succ n ih =>
    intro l hl hk c hc
    cases l with
    | nil => simp [slicesF] at hc
    | cons x xs =>
      simp only [slicesF] at hc
      cases hrest : slicesF n k ((x :: xs).drop k) with
      | nil => rw [hrest] at hc; simp at hc
      | cons r rs =>
        rw [hrest] at hc
        rw [List.dropLast_cons₂] at hc
        rcases List.mem_cons.mp hc with rfl | hc'
        · have hdrop : (x :: xs).drop k ≠ [] := by
            intro hnil
            rw [hnil, slicesF_nil] at hrest
            exact List.noConfusion hrest
          have hklt : k < (x :: xs).length := by
            by_contra hge
            exact hdrop (List.drop_eq_nil_of_le (Nat.le_of_not_lt hge))
          simp only [List.length_cons] at hklt
          simp only [List.length_take, List.length_cons]
          omega
        · have := ih ((x :: xs).drop k) (by simp at hl ⊢; omega) hk c
          rw [hrest] at this
          exact this hc'

theorem slicesF_length (fuel k : Nat) :
    ∀ l : List FName, l.length ≤ fuel → 1 ≤ k →
      (slicesF fuel k l).length = (l.length + k - 1) / k := by
  induction fuel with
  | zero =>
    intro l hl hk
    cases l with
    | nil => simp [slicesF, Nat.div_eq_of_lt (by omega : k - 1 < k)]
    | cons x xs => simp at hl
  | succ n ih =>
    intro l hl hk
    cases l with
    | nil => simp [slicesF, Nat.div_eq_of_lt (by omega : k - 1 < k)]
    | cons x xs =>
      simp only [slicesF, List.length_cons]
      rw [ih ((x :: xs).drop k) (by simp at hl ⊢; omega) hk]
      simp only [List.length_drop, List.length_cons]
      rcases Nat.lt_or_ge k (xs.length + 1) with hlt | hge
      · have h1 : xs.length + 1 - k + k - 1 = xs.length := by omega
        have h2 : xs.length + 1 + k - 1 = xs.length + k := by omega
        rw [h1, h2, Nat.add_div_right _ (by omega : 0 < k)]
      · have h1 : xs.length + 1 - k = 0 := by omega
        rw [h1]
        rw [Nat.div_eq_of_lt (by omega : 0 + k - 1 < k)]
        rw [show xs.length + 1 + k - 1 = xs.length + k by omega]
        have : (xs.length + k) / k = 1 := by
          rw [Nat.div_eq_of_lt_le (by omega : 1 * k ≤ xs.length + k)
            (by omega : xs.length + k < (1 + 1) * k)]
        omega

theorem splitList_flatten (l : List FName) (n : Nat) : (splitList l n).flatten = l := by
  unfold splitList
  cases l with
  | nil => rfl
  | cons x xs =>
    simp only [List.isEmpty_cons, Bool.false_eq_true, if_false]
    exact slicesF_flatten _ _ _ (Nat.le_refl _) (Nat.le_max_left _ _)

theorem flatMap_flatten (L : List (List FName)) (f : FName → List MPair) :
    L.flatMap (fun c => c.flatMap f) = L.flatten.flatMap f := by
  induction L with
  | nil => rfl
  | cons c L ih => simp [List.flatMap_cons, List.flatten_cons, List.flatMap_append, ih]

/-! ### Helper lemmas about expand-mode matching -/

theorem firstKwHit_eq_some_iff (kws : List FName) (t kw : FName) :
    firstKwHit kws t = some kw ↔
      ∃ pre post, kws = pre ++ kw :: post ∧ contS kw t = true ∧
        ∀ k ∈ pre, contS k t = false := by
  induction kws with
  | nil =>
    constructor
    · intro h; exact Option.noConfusion h
    · rintro ⟨pre, post, h, -, -⟩
      exact ((List.cons_ne_nil kw post) (List.append_eq_nil.mp h.symm).2).elim
  | cons k0 rest ih =>
    by_cases h0 : contS k0 t = true
    · simp only [firstKwHit, if_pos h0]
      constructor
      · intro h
        injection h with h
        subst h
        exact ⟨[], rest, rfl, h0, by intro k hk; simp at hk⟩
      · rintro ⟨pre, post, heq, hc, hpre⟩
        cases pre with
        | nil =>
          simp only [List.nil_append, List.cons.injEq] at heq
          exact congrArg some heq.1
        | cons p ps =>
          simp only [List.cons_append, List.cons.injEq] at heq
          have hmem : k0 ∈ p :: ps := heq.1 ▸ List.mem_cons_self p ps
          have hfalse := hpre k0 hmem
          rw [h0] at hfalse
          exact Bool.noConfusion hfalse
    · have h0' : contS k0 t = false := Bool.eq_false_iff.mpr h0
      simp only [firstKwHit, if_neg h0]
      rw [ih]
      constructor
      · rintro ⟨pre, post, heq, hc, hpre⟩
        refine ⟨k0 :: pre, post, by rw [heq, List.cons_append], hc, ?_⟩
        intro k hk
        rcases List.mem_cons.mp hk with rfl | hk'
        · exact h0'
        · exact hpre k hk'
      · rintro ⟨pre, post, heq, hc, hpre⟩
        cases pre with
        | nil =>
          simp only [List.nil_append, List.cons.injEq] at heq
          rw [← heq.1] at hc
          exact absurd hc h0
        | cons p ps =>
          simp only [List.cons_append, List.cons.injEq] at heq
          exact ⟨ps, post, heq.2, hc,
            fun k hk => hpre k (List.mem_cons_of_mem p hk)⟩

theorem countP_block_eq (kws : List FName) (t : FName) :
    ((kws.filterMap (fun kw =>
        if contS kw t then some ((none : Option FName), t, kw) else none)).countP
          (fun p => p.2.1 == t))
      = kws.countP (fun kw => contS kw t) := by
  induction kws with
  | nil => rfl
  | cons kw0 rest ih =>
    simp only [List.filterMap_cons]
    by_cases hk : contS kw0 t = true
    · rw [if_pos hk, List.countP_cons, ih, List.countP_cons, hk]
      simp
    · rw [if_neg hk, ih, List.countP_cons, Bool.eq_false_iff.mpr hk]
      simp

theorem countP_block_ne (kws : List FName) (t0 t : FName) (h : t0 ≠ t) :
    ((kws.filterMap (fun kw =>
        if contS kw t0 then some ((none : Option FName), t0, kw) else none)).countP
          (fun p => p.2.1 == t))
      = 0 := by
  induction kws with
  | nil => rfl
  | cons kw0 rest ih =>
    simp only [List.filterMap_cons]
    by_cases hk : contS kw0 t0 = true
    · rw [if_pos hk, List.countP_cons, ih]
      simp [beq_eq_false_iff_ne.mpr h]
    · rw [if_neg hk]
      exact ih

theorem countP_target_seqExpand (tgts kws : List FName) (t : FName) :
    (seqExpandPairs tgts kws).countP (fun p => p.2.1 == t)
      = tgts.countP (· == t) * kws.countP (fun kw => contS kw t) := by
  induction tgts with
  | nil => simp [seqExpandPairs]
  | cons t0 rest ih =>
    simp only [seqExpandPairs, List.flatMap_cons, List.countP_append] at ih ⊢
    rw [ih, List.countP_cons]
    by_cases ht : t0 = t
    · subst ht
      rw [countP_block_eq]
      simp only [beq_self_eq_true, if_true]
      ring
    · rw [countP_block_ne _ _ _ ht]
      simp [beq_eq_false_iff_ne.mpr ht]

theorem countP_target_parExpand (tgts kws : List FName) (t : FName) :
    (processChunkByText tgts kws).countP (fun p => p.2.1 == t)
      = tgts.countP (· == t) * (firstKwHit kws t).isSome.toNat := by
  induction tgts with
  | nil => simp [processChunkByText]
  | cons t0 rest ih =>
    simp only [processChunkByText, List.flatMap_cons, List.countP_append] at ih ⊢
    rw [ih, List.countP_cons]
    by_cases ht : t0 = t
    · subst ht
      cases hfk : firstKwHit kws t0 with
      | none => simp
      | some kw =>
        simp only [List.countP_cons, List.countP_nil, Option.isSome_some,
          Bool.toNat_true, beq_self_eq_true, if_true, Nat.mul_one]
        omega
    · have ht' : (t0 == t) = false := beq_eq_false_iff_ne.mpr ht
      cases hfk : firstKwHit kws t0 with
      | none => simp [ht']
      | some kw => simp [List.countP_cons, ht']

theorem mem_parExpand (tgts kws : List FName) (t kw : FName) :
    ((none : Option FName), t, kw) ∈ processChunkByText tgts kws ↔
      t ∈ tgts ∧ firstKwHit kws t = some kw := by
  simp only [processChunkByText, List.mem_flatMap]
  constructor
  · rintro ⟨a, ha, hp⟩
    cases hfk : firstKwHit kws a with
    | none => rw [hfk] at hp; simp at hp
    | some kw0 =>
      rw [hfk] at hp
      rw [List.mem_singleton, Prod.mk.injEq, Prod.mk.injEq] at hp
      obtain ⟨-, h2, h3⟩ := hp
      subst h2; subst h3
      exact ⟨ha, hfk⟩
  · rintro ⟨ht, hfk⟩
    exact ⟨t, ht, by rw [hfk]; exact List.mem_singleton_self _⟩

/-! ### Helper lemmas about exact substring mode -/

theorem bestFor_append_single (kw : FName) (l : List FName) (x : FName) :
    bestFor kw (l ++ [x]) = bestStep kw (bestFor kw l) x := by
  simp [bestFor, List.foldl_append]

theorem bestFor_none_iff (kw : FName) (targets : List FName) :
    bestFor kw targets = none ↔ ∀ u ∈ targets, contS kw (stemOf u) = false := by
  induction targets using List.reverseRecOn with
  | nil => simp [bestFor]
  | append_singleton l x ih =>
    rw [bestFor_append_single]
    unfold bestStep
    by_cases hx : contS kw (stemOf x) = true
    · rw [if_pos hx]
      constructor
      · intro h
        cases hbl : bestFor kw l with
        | none => rw [hbl] at h; exact Option.noConfusion h
        | some p =>
          obtain ⟨t0, sc0⟩ := p
          rw [hbl] at h
          have h' : (if sc0 < scoreOf kw (stemOf x) then some (x, scoreOf kw (stemOf x))
              else some (t0, sc0)) = none := h
          split at h' <;> exact Option.noConfusion h'
      · intro h
        have hfx := h x (by simp)
        rw [hx] at hfx
        simp at hfx
    · have hx' : contS kw (stemOf x) = false := Bool.eq_false_iff.mpr hx
      rw [if_neg hx, ih]
      constructor
      · intro h u hu
        rcases List.mem_append.mp hu with hu' | hu'
        · exact h u hu'
        · rw [List.mem_singleton.mp hu']; exact hx'
      · intro h u hu
        exact h u (List.mem_append.mpr (Or.inl hu))

theorem bestFor_spec (kw : FName) (targets : List FName) (t : FName) (sc : Nat)
    (h : bestFor kw targets = some (t, sc)) :
    ∃ pre post, targets = pre ++ t :: post ∧ contS kw (stemOf t) = true ∧
      sc = scoreOf kw (stemOf t) ∧
      (∀ u ∈ pre, contS kw (stemOf u) = true → scoreOf kw (stemOf u) < sc) ∧
      (∀ u ∈ post, contS kw (stemOf u) = true → scoreOf kw (stemOf u) ≤ sc) := by
  induction targets using List.reverseRecOn generalizing t sc with
  | nil => simp [bestFor] at h
  | append_singleton l x ih =>
    rw [bestFor_append_single] at h
    unfold bestStep at h
    by_cases hx : contS kw (stemOf x) = true
    · rw [if_pos hx] at h
      cases hbl : bestFor kw l with
      | none =>
        rw [hbl] at h
        have h' : some (x, scoreOf kw (stemOf x)) = some (t, sc) := h
        injection h' with h'
        rw [Prod.mk.injEq] at h'
        obtain ⟨rfl, rfl⟩ := h'
        have hnone := (bestFor_none_iff kw l).mp hbl
        refine ⟨l, [], by simp, hx, rfl, ?_, by simp⟩
        intro u hu hcu
        rw [hnone u hu] at hcu
        exact Bool.noConfusion hcu
      | some p =>
        obtain ⟨t0, sc0⟩ := p
        rw [hbl] at h
        have h' : (if sc0 < scoreOf kw (stemOf x) then some (x, scoreOf kw (stemOf x))
            else some (t0, sc0)) = some (t, sc) := h
        by_cases hlt : sc0 < scoreOf kw (stemOf x)
        · rw [if_pos hlt] at h'
          injection h' with h'
          rw [Prod.mk.injEq] at h'
          obtain ⟨rfl, rfl⟩ := h'
          obtain ⟨pre0, post0, hl, hc0, hsc0, hpre0, hpost0⟩ := ih t0 sc0 hbl
          refine ⟨l, [], by simp, hx, rfl, ?_, by simp⟩
          intro u hu hcu
          rw [hl] at hu
          rcases List.mem_append.mp hu with hu' | hu'
          · have := hpre0 u hu' hcu
            omega
          · rcases List.mem_cons.mp hu' with rfl | hu''
            · omega
            · have := hpost0 u hu'' hcu
              omega
        · rw [if_neg hlt] at h'
          injection h' with h'
          rw [Prod.mk.injEq] at h'
          obtain ⟨rfl, rfl⟩ := h'
          obtain ⟨pre0, post0, hl, hc0, hsc0, hpre0, hpost0⟩ := ih t0 sc0 hbl
          refine ⟨pre0, post0 ++ [x], by rw [hl]; simp, hc0, hsc0, hpre0, ?_⟩
          intro u hu hcu
          rcases List.mem_append.mp hu with hu' | hu'
          · exact hpost0 u hu' hcu
          · rw [List.mem_singleton.mp hu']
            omega
    · rw [if_neg hx] at h
      obtain ⟨pre0, post0, hl, hc0, hsc0, hpre0, hpost0⟩ := ih t sc h
      refine ⟨pre0, post0 ++ [x], by rw [hl]; simp, hc0, hsc0, hpre0, ?_⟩
      intro u hu hcu
      rcases List.mem_append.mp hu with hu' | hu'
      · exact hpost0 u hu' hcu
      · rw [List.mem_singleton.mp hu'] at hcu
        exact absurd hcu hx

theorem countP_key_exactKw (targets : List FName) (L : List FName) (kw : FName) :
    ((L.filterMap (fun k =>
        (bestFor k targets).map (fun p => ((none : Option FName), p.1, k)))).countP
          (fun p => p.2.2 == kw))
      = L.countP (fun k => k == kw && (bestFor k targets).isSome) := by
  induction L with
  | nil => rfl
  | cons k0 rest ih =>
    cases hb : bestFor k0 targets with
    | none =>
      rw [List.filterMap_cons_none (by rw [hb]; rfl), ih, List.countP_cons]
      simp [hb]
    | some p =>
      rw [List.filterMap_cons_some (by rw [hb]; rfl), List.countP_cons, ih,
        List.countP_cons]
      simp [hb]

theorem mem_exactKwPairs (targets keywords : List FName) (t kw : FName) :
    ((none : Option FName), t, kw) ∈ exactKwPairs targets keywords ↔
      kw ∈ keywords ∧ ∃ sc, bestFor kw targets = some (t, sc) := by
  simp only [exactKwPairs, List.mem_filterMap]
  constructor
  · rintro ⟨k, hk, hmap⟩
    rw [Option.map_eq_some'] at hmap
    obtain ⟨p, hbp, hpe⟩ := hmap
    rw [Prod.mk.injEq, Prod.mk.injEq] at hpe
    obtain ⟨-, h1, h2⟩ := hpe
    subst h2
    refine ⟨List.mem_dedup.mp hk, p.2, ?_⟩
    rw [hbp]
    exact congrArg some (Prod.ext h1 rfl)
  · rintro ⟨hk, sc, hb⟩
    exact ⟨kw, List.mem_dedup.mpr hk, by rw [hb]; rfl⟩

theorem countP_beq_le_one_of_nodup {l : List FName} (h : l.Nodup) (kw : FName) :
    l.countP (fun k => k == kw) ≤ 1 := by
  induction l with
  | nil => simp
  | cons a rest ih =>
    rw [List.countP_cons]
    rcases List.nodup_cons.mp h with ⟨ha, hrest⟩
    by_cases hak : a = kw
    · subst hak
      have hz : rest.countP (fun k => k == a) = 0 := by
        rw [List.countP_eq_zero]
        intro k hk
        simp only [beq_iff_eq]
        intro hka
        exact ha (hka ▸ hk)
      simp [hz]
    · simp only [beq_eq_false_iff_ne.mpr hak, if_false]
      simpa using ih hrest

theorem countP_key_exactKw_le_one (targets keywords : List FName) (kw : FName) :
    (exactKwPairs targets keywords).countP (fun p => p.2.2 == kw) ≤ 1 := by
  rw [exactKwPairs, countP_key_exactKw]
  calc keywords.dedup.countP (fun k => k == kw && (bestFor k targets).isSome)
      ≤ keywords.dedup.countP (fun k => k == kw) :=
        List.countP_mono_left (fun a _ ha => (Bool.and_eq_true _ _).mp ha |>.1)
    _ ≤ 1 := countP_beq_le_one_of_nodup (List.nodup_dedup keywords) kw

/-! ### Helper lemmas about matched-source accounting -/

theorem processName_src (fm : Bool) (targets : List FName) (a : FName) (p : MPair)
    (hp : p ∈ processName fm targets a) : p.1 = some a := by
  unfold processName at hp
  cases fm with
  | false =>
    rw [if_neg Bool.false_ne_true] at hp
    rw [List.mem_map] at hp
    obtain ⟨t, -, rfl⟩ := hp
    rfl
  | true =>
    rw [if_pos rfl] at hp
    cases hd : targetDictFind targets a with
    | none => rw [hd] at hp; simp at hp
    | some t =>
      rw [hd] at hp
      rw [List.mem_singleton] at hp
      subst hp
      rfl

theorem mem_pairSources_iff (pairs : List MPair) (s : FName) :
    s ∈ pairSources pairs ↔ ∃ p ∈ pairs, p.1 = some s := by
  simp [pairSources, List.mem_filterMap]

theorem any_src_iff (pairs : List MPair) (s : FName) :
    (pairs.any (fun p => p.1 == some s)) = true ↔ s ∈ pairSources pairs := by
  rw [List.any_eq_true, mem_pairSources_iff]
  simp

theorem mem_unmatchedSrc_iff (sources : List FName) (pairs : List MPair) (s : FName) :
    s ∈ unmatchedSrc sources pairs ↔ s ∈ sources ∧ ¬ s ∈ pairSources pairs := by
  constructor
  · intro h
    rcases List.mem_filter.mp h with ⟨h1, h2⟩
    refine ⟨h1, fun hs => ?_⟩
    rw [← any_src_iff] at hs
    rw [hs] at h2
    simp at h2
  · rintro ⟨h1, h2⟩
    refine List.mem_filter.mpr ⟨h1, ?_⟩
    rw [Bool.not_eq_true']
    rw [← Bool.not_eq_true]
    rw [any_src_iff]
    exact h2

theorem dirPairs_src_mem (sources targets : List FName) (b fm : Bool) (p : MPair)
    (hp : p ∈ dirPairs sources targets b fm) (s : FName) (hs : p.1 = some s) :
    s ∈ sources := by
  unfold dirPairs at hp
  cases b with
  | true =>
    rw [if_pos rfl] at hp
    rw [List.mem_flatMap] at hp
    obtain ⟨a, ha, hpa⟩ := hp
    have hsrc := processName_src fm targets a p hpa
    rw [hsrc] at hs
    injection hs with hs
    subst hs
    exact ha
  | false =>
    rw [if_neg Bool.false_ne_true] at hp
    rw [List.mem_flatMap] at hp
    obtain ⟨t, ht, hpt⟩ := hp
    unfold processId at hpt
    cases hid : extractId t with
    | none => rw [hid] at hpt; simp at hpt
    | some tid =>
      rw [hid] at hpt
      rw [List.mem_map] at hpt
      obtain ⟨a, ha, rfl⟩ := hpt
      injection hs with hs
      subst hs
      exact List.mem_of_mem_filter ha

/-! ### Helper lemmas about case sensitivity -/

theorem startsW_length_le (p s : FName) (h : startsW p s = true) :
    p.length ≤ s.length := by
  induction p generalizing s with
  | nil => simp
  | cons a as ih =>
    cases s with
    | nil => simp [startsW] at h
    | cons b bs =>
      simp only [startsW, Bool.and_eq_true] at h
      simp only [List.length_cons, Nat.succ_le_succ_iff]
      exact ih bs h.2

theorem startsW_eq_of_length (p s : FName) (h : startsW p s = true)
    (hl : p.length = s.length) : p = s := by
  induction p generalizing s with
  | nil =>
    cases s with
    | nil => rfl
    | cons b bs => simp at hl
  | cons a as ih =>
    cases s with
    | nil => simp [startsW] at h
    | cons b bs =>
      simp only [startsW, Bool.and_eq_true, beq_iff_eq] at h
      simp only [List.length_cons, Nat.succ.injEq] at hl
      rw [h.1, ih bs h.2 hl]

theorem contS_length_le (n hay : FName) (hc : contS n hay = true) :
    n.length ≤ hay.length := by
  induction hay with
  | nil =>
    simp only [contS] at hc
    rw [List.isEmpty_iff] at hc
    simp [hc]
  | cons b bs ih =>
    simp only [contS, Bool.or_eq_true] at hc
    rcases hc with hc | hc
    · exact startsW_length_le _ _ hc
    · exact Nat.le_trans (ih hc) (by simp)

theorem contS_eq_of_length (n hay : FName) (hc : contS n hay = true)
    (hl : n.length = hay.length) : n = hay := by
  induction hay with
  | nil =>
    simp only [contS] at hc
    rw [List.isEmpty_iff] at hc
    exact hc
  | cons b bs ih =>
    simp only [contS, Bool.or_eq_true] at hc
    rcases hc with hc | hc
    · exact startsW_eq_of_length _ _ hc hl
    · have hle := contS_length_le n bs hc
      simp only [List.length_cons] at hl
      exact absurd hle (by omega)

/-! ### Claim theorems -/

/-- C1, amended.  In KeywordSubstringExpand mode the parallel chunk function
(_process_chunk_by_text, lines 199-209) tests the keywords in the request's order
and stops at the first keyword contained in the full filename, so each occurrence
of a target contributes at most one pair there, keyed by the first matching
keyword; the sequential execution path (lines 507-519), however, has no break in
its keyword loop and emits one pair per matching keyword, so there a target
contributes as many pairs as it has matching keywords.  Conjuncts: pair count per
target in the parallel chunk function; pair count per target in the sequential
path; membership characterization of parallel pairs; first-match characterization
(the matched keyword hits and every earlier keyword misses). -/
theorem c1_amended_thm (tgts kws : List FName) (t kw : FName) :
    ((processChunkByText tgts kws).countP (fun p => p.2.1 == t)
        = tgts.countP (· == t) * (firstKwHit kws t).isSome.toNat)
    ∧ ((seqExpandPairs tgts kws).countP (fun p => p.2.1 == t)
        = tgts.countP (· == t) * kws.countP (fun k => contS k t))
    ∧ (((none : Option FName), t, kw) ∈ processChunkByText tgts kws ↔
        t ∈ tgts ∧ firstKwHit kws t = some kw)
    ∧ (firstKwHit kws t = some kw ↔
        ∃ pre post, kws = pre ++ kw :: post ∧ contS kw t = true ∧
          ∀ k ∈ pre, contS k t = false) :=
  ⟨countP_target_parExpand tgts kws t, countP_target_seqExpand tgts kws t,
   mem_parExpand tgts kws t kw, firstKwHit_eq_some_iff kws t kw⟩

/-- C1 counterexample.  With keywords "a;b" and the single target "ab", the
sequential expand path emits two pairs for the one target (one per matching
keyword), refuting the claim that both execution paths stop at the first matching
keyword; the parallel chunk function indeed stops after "a". -/
theorem c1_counterexample :
    seqExpandPairs [['a', 'b']] kwAB =
      [((none : Option FName), ['a', 'b'], ['a']),
       ((none : Option FName), ['a', 'b'], ['b'])] ∧
    processChunkByText [['a', 'b']] kwAB =
      [((none : Option FName), ['a', 'b'], ['a'])] :=
  ⟨rfl, rfl⟩

/-- C2, amended.  For the ExactName and IDPrefix strategies the parallel path
(chunks of _split_list merged in an arbitrary completion order sched) produces a
permutation of the sequential pair list, so the matched-pair set is invariant to
concurrencyEnabled there; KeywordFull and KeywordSubstringExact have no parallel
path at all; in KeywordSubstringExpand mode the two paths genuinely produce
different pair sets (see the counterexample). -/
theorem c2_amended_thm :
    (∀ (sources targets : List FName) (fm : Bool) (tc : Nat)
        (sched : List (List FName)), sched.Perm (splitList sources tc) →
        (runExactPairs sources targets fm true sched).Perm
          (runExactPairs sources targets fm false sched)) ∧
    (∀ (sources targets : List FName) (tc : Nat) (sched : List (List FName)),
        sched.Perm (splitList targets tc) →
        (runIdPairs sources targets true sched).Perm
          (runIdPairs sources targets false sched)) := by
  constructor
  · intro sources targets fm tc sched hperm
    unfold runExactPairs
    by_cases h : 100 < sources.length
    · rw [if_pos (by simp [h]), if_neg (by simp)]
      refine (hperm.flatMap_right _).trans ?_
      rw [flatMap_flatten, splitList_flatten]
    · rw [if_neg (by simp [h]), if_neg (by simp)]
  · intro sources targets tc sched hperm
    unfold runIdPairs
    by_cases h : 100 < targets.length
    · rw [if_pos (by simp [h]), if_neg (by simp)]
      refine (hperm.flatMap_right _).trans ?_
      rw [flatMap_flatten, splitList_flatten]
    · rw [if_neg (by simp [h]), if_neg (by simp)]

/-- C2 counterexample.  A directory of 101 files whose first file "ab" contains
both keywords "a" and "b": the sequential path emits the pair keyed "b" for that
target, the parallel path (here with the chunks in submission order, one possible
completion order) never does, so the pair sets differ between
concurrencyEnabled = false and true. -/
theorem c2_counterexample :
    pairB ∈ runExpandPairs demo101 kwAB false (splitList demo101 4) ∧
    pairB ∉ runExpandPairs demo101 kwAB true (splitList demo101 4) := by
  decide

/-- C2 witness: the ExactName conjunct applied at a concrete input, with the
permutation hypothesis discharged by reflexivity. -/
theorem c2_witness :
    ((splitList [['a']] 2).Perm (splitList [['a']] 2)) ∧
    (runExactPairs [['a']] [['a']] true true (splitList [['a']] 2)).Perm
      (runExactPairs [['a']] [['a']] true false (splitList [['a']] 2)) :=
  ⟨List.Perm.refl _, c2_amended_thm.1 [['a']] [['a']] true 2 _ (List.Perm.refl _)⟩

/-- C3, confirmed.  In KeywordSubstringExact mode the candidate retained for a
keyword is scored by scoreOf (100 stem equality, 80 keyword-plus-separator at the
start, 60 separator-plus-keyword at the end, 40 plain containment) and is a
first-encountered candidate of maximal score: every candidate strictly before it
scores strictly less (ties keep the earlier candidate, replacement needs a
strictly greater score) and every candidate after it scores at most as much; a
keyword retains no candidate exactly when no target stem contains it; the emitted
pairs are exactly the retained candidates, at most one pair per keyword. -/
theorem c3_thm (targets keywords : List FName) (kw t : FName) (sc : Nat) :
    (bestFor kw targets = some (t, sc) →
      ∃ pre post, targets = pre ++ t :: post ∧ contS kw (stemOf t) = true ∧
        sc = scoreOf kw (stemOf t) ∧
        (∀ u ∈ pre, contS kw (stemOf u) = true → scoreOf kw (stemOf u) < sc) ∧
        (∀ u ∈ post, contS kw (stemOf u) = true → scoreOf kw (stemOf u) ≤ sc)) ∧
    (bestFor kw targets = none ↔ ∀ u ∈ targets, contS kw (stemOf u) = false) ∧
    (((none : Option FName), t, kw) ∈ exactKwPairs targets keywords ↔
      kw ∈ keywords ∧ ∃ sc', bestFor kw targets = some (t, sc')) ∧
    ((exactKwPairs targets keywords).countP (fun p => p.2.2 == kw) ≤ 1) :=
  ⟨bestFor_spec kw targets t sc, bestFor_none_iff kw targets,
   mem_exactKwPairs targets keywords t kw, countP_key_exactKw_le_one targets keywords kw⟩

/-- C3 witness: with targets "ab" and "a" and keyword "a", the retained candidate
is "a" with score 100; the theorem's first conjunct is applied at this input. -/
theorem c3_witness :
    ∃ pre post, ([['a', 'b'], ['a']] : List FName) = pre ++ (['a'] : FName) :: post ∧
      contS ['a'] (stemOf ['a']) = true ∧
      (100 : Nat) = scoreOf ['a'] (stemOf ['a']) ∧
      (∀ u ∈ pre, contS ['a'] (stemOf u) = true → scoreOf ['a'] (stemOf u) < 100) ∧
      (∀ u ∈ post, contS ['a'] (stemOf u) = true → scoreOf ['a'] (stemOf u) ≤ 100) :=
  (c3_thm [['a', 'b'], ['a']] [['a']] ['a'] ['a'] 100).1 (by decide)

/-- C4, amended.  For both ExactName and IDPrefix the partition holds with no
exception at all: every scanned source file is either the source of some pair or
appears in unmatched_source_files, and never both.  In particular, under IDPrefix
a source file with no leading alphanumeric character is never matched and is
included in unmatched_source_files (line 398 filters the full source list), not
excluded from both sides as the claim states. -/
theorem c4_amended_thm (sources targets : List FName) (b fm : Bool) (s : FName) :
    ((s ∈ pairSources (dirPairs sources targets b fm) ∨
        s ∈ unmatchedSrc sources (dirPairs sources targets b fm)) ↔ s ∈ sources) ∧
    (s ∈ pairSources (dirPairs sources targets b fm) →
      ¬ s ∈ unmatchedSrc sources (dirPairs sources targets b fm)) := by
  constructor
  · constructor
    · rintro (hm | hu)
      · rcases (mem_pairSources_iff _ s).mp hm with ⟨p, hp, hps⟩
        exact dirPairs_src_mem sources targets b fm p hp s hps
      · exact ((mem_unmatchedSrc_iff _ _ s).mp hu).1
    · intro hs
      by_cases hm : s ∈ pairSources (dirPairs sources targets b fm)
      · exact Or.inl hm
      · exact Or.inr ((mem_unmatchedSrc_iff _ _ s).mpr ⟨hs, hm⟩)
  · intro hm hu
    exact ((mem_unmatchedSrc_iff _ _ s).mp hu).2 hm

/-- C4 counterexample.  Source "-a" has no leading alphanumeric character; under
IDPrefix it is (as the claim says) excluded from the matched side, but it is NOT
excluded from the unmatched side: the code lists it in unmatched_source_files. -/
theorem c4_counterexample :
    extractId ['-', 'a'] = none ∧
    ['-', 'a'] ∈ unmatchedSrc [['-', 'a']] (dirPairs [['-', 'a']] [['x']] false true) ∧
    ['-', 'a'] ∉ pairSources (dirPairs [['-', 'a']] [['x']] false true) := by
  decide

/-- C4 witness: a matched source is not in the unmatched list. -/
theorem c4_witness :
    (['a'] : FName) ∈ pairSources (dirPairs [['a']] [['a']] true true) ∧
    ¬ (['a'] : FName) ∈ unmatchedSrc [['a']] (dirPairs [['a']] [['a']] true true) :=
  ⟨by decide, (c4_amended_thm [['a']] [['a']] true true ['a']).2 (by decide)⟩

/-- C5, amended.  _split_list cuts the list into contiguous chunks of size
max(1, ⌊n / numChunks⌋) — floored division, not ceiling — so the number of chunks
is ⌈n / chunkSize⌉, which in general differs from the requested
max(4, availableParallelism); the concatenation of the chunks in order is the
original list, every chunk is nonempty and no longer than the chunk size, and all
chunks except possibly the last have exactly the chunk size. -/
theorem c5_amended_thm (l : List FName) (n : Nat) :
    ((splitList l n).flatten = l) ∧
    (∀ c ∈ splitList l n, c ≠ [] ∧ c.length ≤ chunkSize l.length n) ∧
    (∀ c ∈ (splitList l n).dropLast, c.length = chunkSize l.length n) ∧
    ((splitList l n).length
      = (l.length + chunkSize l.length n - 1) / chunkSize l.length n) := by
  refine ⟨splitList_flatten l n, ?_, ?_, ?_⟩
  · intro c hc
    unfold splitList at hc
    cases l with
    | nil => simp at hc
    | cons x xs =>
      rw [if_neg (by simp)] at hc
      exact slicesF_mem _ _ _ (Nat.le_refl _) (Nat.le_max_left _ _) c hc
  · intro c hc
    unfold splitList at hc
    cases l with
    | nil => simp at hc
    | cons x xs =>
      rw [if_neg (by simp)] at hc
      exact slicesF_dropLast _ _ _ (Nat.le_refl _) (Nat.le_max_left _ _) c hc
  · unfold splitList
    cases l with
    | nil => simp [chunkSize]
    | cons x xs =>
      rw [if_neg (by simp)]
      exact slicesF_length _ _ _ (Nat.le_refl _) (Nat.le_max_left _ _)

/-- C5 counterexample.  A 101-item list (long enough to be parallelized) with
max(4, availableParallelism) = 4 is split into 5 chunks of sizes 25,25,25,25,1 —
not into exactly 4 chunks, and the common chunk size is the floor 25, not the
ceiling ⌈101/4⌉ = 26. -/
theorem c5_counterexample :
    demo101.length = 101 ∧
    (splitList demo101 (max 4 4)).length = 5 ∧ ((5 : Nat) ≠ max 4 4) ∧
    (splitList demo101 (max 4 4)).map List.length = [25, 25, 25, 25, 1] ∧
    ((25 : Nat) ≠ (101 + max 4 4 - 1) / max 4 4) := by
  decide

/-- C5 witness: the amended theorem evaluated on the 101-item list. -/
theorem c5_witness :
    (splitList demo101 4).flatten = demo101 ∧
    (demo101.take 25 ≠ [] ∧ (demo101.take 25).length ≤ chunkSize demo101.length 4) :=
  ⟨(c5_amended_thm demo101 4).1,
   (c5_amended_thm demo101 4).2.1 (demo101.take 25) (by decide)⟩

/-- C6, amended.  The cancellation flag is polled only after the counting scan,
after each directory load and after each index batch — all strictly before any
chunk is dispatched; a flag observed at one of those polls ends the run with
nothing dispatched and no MatchResult.  But the flag is NOT polled before each
chunk dispatch: once the last poll has passed, every chunk is dispatched, no chunk
result is discarded, and the MatchResult is emitted even though the flag is
set. -/
theorem c6_amended_thm (sources targets : List FName) (fm : Bool) (tc ct : Nat) :
    (ct ≤ 3 + idxBatches targets.length →
      runFNCancel sources targets fm tc ct = (0, none)) ∧
    (3 + idxBatches targets.length < ct → 100 < sources.length →
      runFNCancel sources targets fm tc ct =
        ((splitList sources tc).length,
         some (sources.flatMap (processName fm targets),
               unmatchedSrc sources (sources.flatMap (processName fm targets))))) := by
  constructor
  · intro h
    unfold runFNCancel
    split_ifs <;> first | rfl | omega
  · intro h1 h2
    unfold runFNCancel
    split_ifs <;> first | rfl | omega

/-- C6 counterexample.  With 101 sources and one target there is exactly one index
batch, so the polls happen at times 1,2,3,4 and the first chunk dispatch at time
5 = firstDispatchTime.  Setting the flag at time 5 — at the first dispatch, hence
before every dispatch completes — still dispatches all 5 chunks and emits a
MatchResult, refuting the claim that no further chunk is dispatched and that the
engine terminates without a result. -/
theorem c6_counterexample :
    firstDispatchTime demoT6.length ≤ 5 ∧
    (runFNCancel demo101 demoT6 true 4 5).1 = 5 ∧
    (runFNCancel demo101 demoT6 true 4 5).2.isSome = true := by
  decide

/-- C6 witness: both conjuncts of the amended theorem at concrete inputs. -/
theorem c6_witness :
    runFNCancel [] [] true 4 1 = (0, none) ∧
    runFNCancel demo101 demoT6 true 4 5 =
      ((splitList demo101 4).length,
       some (demo101.flatMap (processName true demoT6),
             unmatchedSrc demo101 (demo101.flatMap (processName true demoT6)))) :=
  ⟨(c6_amended_thm [] [] true 4 1).1 (by decide),
   (c6_amended_thm demo101 demoT6 true 4 5).2 (by decide) (by decide)⟩

/-- C7, amended.  In directory-matching mode a non-empty path that does not exist
or is not a directory is loaded as an empty listing and the run completes
normally — but an empty path aborts with a configuration error before any load,
and in keyword-matching mode the target directory is listed without an isdir
guard (line 420), so a missing or non-directory target path raises and the run
terminates with an error, not normally. -/
theorem c7_amended_thm :
    (∀ (fs : FSModel) (tgtDir : FName) (b fm : Bool),
        runDirMode fs [] tgtDir b fm = Outcome.errConfig) ∧
    (∀ (fs : FSModel) (srcDir tgtDir : FName) (b fm : Bool),
        srcDir ≠ [] → tgtDir ≠ [] →
        ∃ pairs us, runDirMode fs srcDir tgtDir b fm = Outcome.ok pairs us []) ∧
    (∀ (fs : FSModel) (srcDir tgtDir : FName) (b fm : Bool),
        srcDir ≠ [] → tgtDir ≠ [] → fs srcDir = none → fs tgtDir = none →
        runDirMode fs srcDir tgtDir b fm = Outcome.ok [] [] []) ∧
    (∀ (fs : FSModel) (tgtDir textInput : FName) (ftb expand : Bool),
        tgtDir ≠ [] → stripL textInput ≠ [] → fs tgtDir = none →
        runKwMode fs tgtDir textInput ftb expand = Outcome.errExn) := by
  refine ⟨?_, ?_, ?_, ?_⟩
  · intro fs tgtDir b fm
    unfold runDirMode
    rw [if_pos (by simp)]
  · intro fs srcDir tgtDir b fm hs ht
    unfold runDirMode
    rw [if_neg (by simp [List.isEmpty_iff, hs, ht])]
    exact ⟨_, _, rfl⟩
  · intro fs srcDir tgtDir b fm hs ht hfs hft
    unfold runDirMode
    rw [if_neg (by simp [List.isEmpty_iff, hs, ht])]
    have hls : loadFiles fs srcDir = [] := by
      unfold loadFiles
      rw [if_neg (by simp [List.isEmpty_iff, hs]), hfs]
    have hlt : loadFiles fs tgtDir = [] := by
      unfold loadFiles
      rw [if_neg (by simp [List.isEmpty_iff, ht]), hft]
    rw [hls, hlt]
    cases b <;> rfl
  · intro fs tgtDir textInput ftb expand ht htext hfs
    unfold runKwMode
    rw [if_neg (by simp [List.isEmpty_iff, ht]),
      if_neg (by simp [List.isEmpty_iff, htext]), hfs]

/-- C7 counterexample.  On a filesystem with no directories: in keyword mode a
non-existent target directory makes the run terminate with an error (the unguarded
listing raises), and in directory mode an empty source path terminates with a
configuration error — in neither case does the run treat the listing as empty and
complete normally. -/
theorem c7_counterexample :
    runKwMode (fun _ => none) ['t'] ['a'] false false = Outcome.errExn ∧
    runDirMode (fun _ => none) [] ['t'] true true = Outcome.errConfig :=
  ⟨rfl, rfl⟩

/-- C7 witness: directory mode with two non-empty paths that are not directories
completes normally with empty listings. -/
theorem c7_witness :
    runDirMode (fun _ => none) ['s'] ['t'] true true = Outcome.ok [] [] [] :=
  c7_amended_thm.2.2.1 (fun _ => none) ['s'] ['t'] true true
    (by decide) (by decide) rfl rfl

/-- C8, amended.  A missing required directory or missing keyword input does
terminate the run with a configuration error and without any (partial)
MatchResult — but not before any directory scanning: the counting scan of both
supplied directories (lines 213-227) always runs first and emits its counts
event; the configuration checks come only after it. -/
theorem c8_amended_thm :
    (∀ (fs : FSModel) (srcDir tgtDir : FName) (b fm : Bool),
        (srcDir.isEmpty || tgtDir.isEmpty) = true →
        runDirTrace fs srcDir tgtDir b fm =
          [Ev.counts (countFiles fs srcDir) (countFiles fs tgtDir), Ev.errConfig]) ∧
    (∀ (fs : FSModel) (srcDir tgtDir textInput : FName) (ftb expand : Bool),
        (tgtDir.isEmpty || (stripL textInput).isEmpty) = true →
        runKwTrace fs srcDir tgtDir textInput ftb expand =
          [Ev.counts (countFiles fs srcDir) (countFiles fs tgtDir), Ev.errConfig]) := by
  constructor
  · intro fs srcDir tgtDir b fm h
    unfold runDirTrace runDirMode
    rw [if_pos h]
  · intro fs srcDir tgtDir textInput ftb expand h
    unfold runKwTrace runKwMode
    rcases Bool.or_eq_true_iff.mp h with h1 | h1
    · rw [if_pos h1]
    · by_cases h2 : tgtDir.isEmpty = true
      · rw [if_pos h2]
      · rw [if_neg h2, if_pos h1]

/-- C8 counterexample.  Directory mode with an empty source path and an existing
target directory holding one file: the first emitted event is the counting scan
reporting that file — the directories are scanned before the configuration error
is raised, refuting "before any directory scanning takes place". -/
theorem c8_counterexample :
    runDirTrace demoFS8 [] ['t'] true true = [Ev.counts 0 1, Ev.errConfig] ∧
    (runDirTrace demoFS8 [] ['t'] true true).head? ≠ some Ev.errConfig := by
  exact ⟨rfl, by decide⟩

/-- C8 witness: keyword mode with blank keyword input also counts first, then
errors, with no result event. -/
theorem c8_witness :
    runKwTrace demoFS8 ['s'] ['t'] [' '] false false =
      [Ev.counts (countFiles demoFS8 ['s']) (countFiles demoFS8 ['t']),
       Ev.errConfig] :=
  c8_amended_thm.2 demoFS8 ['s'] ['t'] [' '] false false (by decide)

/-! ### Helper lemmas about keyword parsing and full-match mode -/

theorem parseKeywords_count (text : FName) (kw : FName) (hkw : kw ≠ []) :
    (parseKeywords text).count kw
      = ((text.map (fun c => if c == ';' then '\n' else c)).splitOn '\n').countP
          (fun seg => stripL seg == kw) := by
  unfold parseKeywords
  generalize (text.map fun c => if c == ';' then '\n' else c).splitOn '\n' = segs
  induction segs with
  | nil => rfl
  | cons s0 rest ih =>
    by_cases h0 : (stripL s0).isEmpty = true
    · rw [List.filterMap_cons_none (by rw [if_pos h0]), ih, List.countP_cons]
      have hne : (stripL s0 == kw) = false := by
        apply beq_eq_false_iff_ne.mpr
        intro heq
        rw [List.isEmpty_iff] at h0
        exact hkw (heq ▸ h0)
      rw [hne]
      simp
    · rw [List.filterMap_cons_some (by rw [if_neg h0]), List.count_cons, ih,
        List.countP_cons]

theorem fullMatchPairs_count (targets : List FName) (kw t : FName)
    (h : nameDictFind targets kw = some t) (keywords : List FName) :
    (fullMatchPairs targets keywords).count ((none : Option FName), t, kw)
      = keywords.count kw := by
  induction keywords with
  | nil => rfl
  | cons k0 rest ih =>
    unfold fullMatchPairs at ih ⊢
    cases hk : nameDictFind targets k0 with
    | none =>
      rw [List.filterMap_cons_none (by rw [hk]; rfl), ih, List.count_cons]
      by_cases hbk : k0 = kw
      · subst hbk
        rw [hk] at h
        exact Option.noConfusion h
      · rw [beq_eq_false_iff_ne.mpr hbk]
        simp
    | some t0 =>
      rw [List.filterMap_cons_some (by rw [hk]; rfl), List.count_cons, ih,
        List.count_cons]
      by_cases hbk : k0 = kw
      · subst hbk
        rw [hk] at h
        injection h with h
        subst h
        simp
      · have h1 : ((none, t0, k0) == ((none : Option FName), t, kw)) = false :=
          beq_eq_false_iff_ne.mpr
            (by intro heq; exact hbk (congrArg (fun p => p.2.2) heq))
        rw [h1, beq_eq_false_iff_ne.mpr hbk]

theorem fullMatchUnmatched_count (targets : List FName) (kw : FName)
    (h : nameDictFind targets kw = none) (keywords : List FName) :
    (fullMatchUnmatched targets keywords).count kw = keywords.count kw := by
  induction keywords with
  | nil => rfl
  | cons k0 rest ih =>
    unfold fullMatchUnmatched at ih ⊢
    rw [List.filter_cons]
    by_cases hk : (nameDictFind targets k0).isNone = true
    · rw [if_pos hk, List.count_cons, ih, List.count_cons]
    · rw [if_neg hk, ih, List.count_cons]
      have hbk : (k0 == kw) = false := by
        apply beq_eq_false_iff_ne.mpr
        intro heq
        subst heq
        exact hk (by rw [h]; rfl)
      rw [hbk]
      simp

/-- C9, confirmed.  Keyword parsing keeps duplicate occurrences: the multiplicity
of a (non-empty) keyword equals the number of split segments that strip to it; in
FullMatch mode a keyword with a stem-equal target contributes one identical pair
per occurrence, and a keyword with no stem-equal target contributes one
unmatched-keyword entry per occurrence — both outputs are lists with repeats, not
deduplicated sets. -/
theorem c9_thm (text : FName) (targets keywords : List FName) (kw t : FName) :
    (kw ≠ [] →
      (parseKeywords text).count kw
        = ((text.map (fun c => if c == ';' then '\n' else c)).splitOn '\n').countP
            (fun seg => stripL seg == kw)) ∧
    (nameDictFind targets kw = some t →
      (fullMatchPairs targets keywords).count ((none : Option FName), t, kw)
        = keywords.count kw) ∧
    (nameDictFind targets kw = none →
      (fullMatchUnmatched targets keywords).count kw = keywords.count kw) :=
  ⟨fun hkw => parseKeywords_count text kw hkw,
   fun h => fullMatchPairs_count targets kw t h keywords,
   fun h => fullMatchUnmatched_count targets kw h keywords⟩

/-- C9 witness: the text "x;x" parses to two occurrences of "x"; with target
"x.y" (stem "x") both occurrences yield the identical pair, and an unmatched
keyword "q" duplicated in the request appears twice in unmatched_keywords. -/
theorem c9_witness :
    ((parseKeywords ['x', ';', 'x']).count ['x']
        = (((['x', ';', 'x'] : FName).map
            (fun c => if c == ';' then '\n' else c)).splitOn '\n').countP
              (fun seg => stripL seg == ['x'])) ∧
    ((fullMatchPairs [['x', '.', 'y']] (parseKeywords ['x', ';', 'x'])).count
        ((none : Option FName), ['x', '.', 'y'], ['x'])
        = (parseKeywords ['x', ';', 'x']).count ['x']) ∧
    ((fullMatchUnmatched [['x', '.', 'y']] [['q'], ['q']]).count ['q']
        = ([['q'], ['q']] : List FName).count ['q']) :=
  ⟨(c9_thm ['x', ';', 'x'] [] [] ['x'] []).1 (by decide),
   (c9_thm [] [['x', '.', 'y']] (parseKeywords ['x', ';', 'x']) ['x']
      ['x', '.', 'y']).2.1 (by decide),
   (c9_thm [] [['x', '.', 'y']] [['q'], ['q']] ['q'] []).2.2 (by decide)⟩

/-- C10, confirmed.  Every comparison the five strategies make is exact, hence
case-sensitive: whenever the compared values (full basename for ExactName with
extension matching; stem for ExactName without extension matching, KeywordFull and
KeywordSubstringExact; extracted id for IDPrefix; full filename for
KeywordSubstringExpand, in both execution paths) agree after lowercasing but are
not equal, no pair is produced. -/
theorem c10_thm (x y sn tn kw : FName) :
    (x.map Char.toLower = y.map Char.toLower → x ≠ y →
      processName true [y] x = []) ∧
    ((stemOf sn).map Char.toLower = (stemOf tn).map Char.toLower →
      stemOf sn ≠ stemOf tn → processName false [tn] sn = []) ∧
    (∀ i j, extractId sn = some i → extractId tn = some j →
      i.map Char.toLower = j.map Char.toLower → i ≠ j →
      processId [sn] tn = []) ∧
    (kw.map Char.toLower = (stemOf tn).map Char.toLower → kw ≠ stemOf tn →
      fullMatchPairs [tn] [kw] = []) ∧
    (kw.map Char.toLower = (stemOf tn).map Char.toLower → kw ≠ stemOf tn →
      exactKwPairs [tn] [kw] = []) ∧
    (kw.map Char.toLower = tn.map Char.toLower → kw ≠ tn →
      processChunkByText [tn] [kw] = [] ∧ seqExpandPairs [tn] [kw] = []) := by
  refine ⟨?_, ?_, ?_, ?_, ?_, ?_⟩
  · intro _ hne
    unfold processName
    rw [if_pos rfl]
    have hd : targetDictFind [y] x = none := by
      unfold targetDictFind
      simp only [List.foldl_cons, List.foldl_nil]
      have hyx : ¬ (y == x) = true := by
        rw [beq_iff_eq]
        exact fun h => hne h.symm
      rw [if_neg hyx]
    rw [hd]
  · intro _ hne
    unfold processName
    rw [if_neg Bool.false_ne_true]
    unfold stemDictFind
    have hts : ¬ (stemOf tn == stemOf sn) = true := by
      rw [beq_iff_eq]
      exact fun h => hne h.symm
    rw [List.filter_cons, if_neg hts, List.filter_nil]
    rfl
  · intro i j hi hj _ hne
    unfold processId
    rw [hj]
    show List.map (fun s => (some s, tn, j)) (sDictFind [sn] j) = []
    unfold sDictFind
    have his : ¬ (extractId sn == some j) = true := by
      rw [beq_iff_eq, hi]
      intro h
      injection h with h
      exact hne h
    rw [List.filter_cons, if_neg his, List.filter_nil]
    rfl
  · intro _ hne
    unfold fullMatchPairs
    have hd : nameDictFind [tn] kw = none := by
      unfold nameDictFind
      simp only [List.foldl_cons, List.foldl_nil]
      have hts : ¬ (stemOf tn == kw) = true := by
        rw [beq_iff_eq]
        exact fun h => hne h.symm
      rw [if_neg hts]
    rw [List.filterMap_cons_none (by rw [hd]; rfl)]
    rfl
  · intro hlow hne
    have hb : bestFor kw [tn] = none := by
      rw [bestFor_none_iff]
      intro u hu
      rw [List.mem_singleton] at hu
      rw [hu]
      apply Bool.eq_false_iff.mpr
      intro hcon
      have hlen : kw.length = (stemOf tn).length := by
        simpa using congrArg List.length hlow
      exact hne (contS_eq_of_length _ _ hcon hlen)
    rw [exactKwPairs, List.filterMap_eq_nil_iff]
    intro k hk
    rw [List.mem_dedup, List.mem_singleton] at hk
    rw [hk]
    simp [hb]
  · intro hlow hne
    have hc : contS kw tn = false := by
      apply Bool.eq_false_iff.mpr
      intro hcon
      have hlen : kw.length = tn.length := by
        simpa using congrArg List.length hlow
      exact hne (contS_eq_of_length _ _ hcon hlen)
    constructor
    · simp [processChunkByText, firstKwHit, hc]
    · simp [seqExpandPairs, hc]

/-- C10 witness: the keyword, basename and filename "A" never matches the
target "a" in the ExactName, KeywordSubstringExact and KeywordSubstringExpand
strategies, although the two differ only in letter case. -/
theorem c10_witness :
    ((['A'] : FName).map Char.toLower = (['a'] : FName).map Char.toLower) ∧
    processName true [['a']] ['A'] = [] ∧
    exactKwPairs [['a']] [['A']] = [] ∧
    processChunkByText [['a']] [['A']] = [] ∧
    seqExpandPairs [['a']] [['A']] = [] :=
  ⟨by decide,
   (c10_thm ['A'] ['a'] ['s'] ['a'] ['A']).1 (by decide) (by decide),
   (c10_thm ['A'] ['a'] ['s'] ['a'] ['A']).2.2.2.2.1 (by decide) (by decide),
   ((c10_thm ['A'] ['a'] ['s'] ['a'] ['A']).2.2.2.2.2 (by decide) (by decide)).1,
   ((c10_thm ['A'] ['a'] ['s'] ['a'] ['A']).2.2.2.2.2 (by decide) (by decide)).2⟩

end DocFilter
